import Mathlib

/-!
Verification of the NoGo exact solver (`gtp_connection.py`): the
`boolean_negamax` search, the `TranspositionTable`, the `solve` command,
and the coordinate formatting helpers, shallowly embedded in Lean.

The board module (`board.py` / `board_base.py`) is not part of the given
sources; its operations are modelled from the specification (§3, §6):
a grid of cells, a suicide-rule legality predicate, stone placement,
empty-point enumeration in ascending index order, and a canonical
content-derived string encoding.
-/

/-- Colour codes of the external board module (board_base). -/
def EMPTY : Nat := 0

/-- Colour code for the black player. -/
def BLACK : Nat := 1

/-- Colour code for the white player. -/
def WHITE : Nat := 2

/-- Colour code for border / off-board cells. -/
def BORDER : Nat := 3

/-- Modelled from the spec: the external board state (§3): a grid of cells
in one dimension with stride `size + 1` (rows and columns run `1 .. size`),
a designated current player, and the move-tracking fields that `solve_cmd`
resets.  `cells` is indexed by the point `row * (size + 1) + col`. -/
structure GoBoard where
  size : Nat
  cells : List Nat
  current_player : Nat
  last_move : Option Nat := none
  last_move_color : Option Nat := none
deriving DecidableEq, Repr

/-- Size of the one-dimensional cell array covering all points of a board
of side `sz`: points run up to `sz * (sz + 1) + sz = (sz + 1) ^ 2 - 1`. -/
def arraySizeOf (sz : Nat) : Nat := (sz + 1) * (sz + 1)

/-- Size of the cell array of a board. -/
def arraySize (b : GoBoard) : Nat := arraySizeOf b.size

/-- A point is on the board iff its row and column are in `1 .. sz`. -/
def validPoint (sz p : Nat) : Bool :=
  decide (1 ≤ p / (sz + 1)) && decide (p / (sz + 1) ≤ sz) &&
  decide (1 ≤ p % (sz + 1)) && decide (p % (sz + 1) ≤ sz)

/-- Cell content at a point; `BORDER` off the board. -/
def getCell (b : GoBoard) (p : Nat) : Nat :=
  if validPoint b.size p then b.cells.getD p BORDER else BORDER

/-- The board with the cell at `p` overwritten by colour `c`. -/
def setCells (b : GoBoard) (p c : Nat) : GoBoard :=
  { b with cells := b.cells.set p c }

/-- The four orthogonal neighbours of a point, restricted to the board. -/
def neighborsOf (sz p : Nat) : List Nat :=
  [p - (sz + 1), p - 1, p + 1, p + (sz + 1)].filter (fun q => validPoint sz q)

/-- Modelled from the spec: enumeration of the empty cells of the board in
a stable ascending index order (§4.2 step 2, §6). -/
def get_empty_points (b : GoBoard) : List Nat :=
  (List.range (arraySize b)).filter
    (fun p => validPoint b.size p && (getCell b p == EMPTY))

/-- Number of empty cells of a board. -/
def numEmpties (b : GoBoard) : Nat := (get_empty_points b).length

/-- One round of growing a connected group: adjoin every cell of colour
`c` that is adjacent to the set collected so far. -/
def expandOnce (b : GoBoard) (c : Nat) (acc : List Nat) : List Nat :=
  acc ++ (List.range (arraySize b)).filter
    (fun q => (getCell b q == c) && !(acc.contains q) &&
      (neighborsOf b.size q).any (fun r => acc.contains r))

/-- Iterated group growth. -/
def iterExpand (b : GoBoard) (c : Nat) : Nat → List Nat → List Nat
  | 0, acc => acc
  | n + 1, acc => iterExpand b c n (expandOnce b c acc)

/-- The connected group of colour `c` containing `p`: iterating the
one-step growth `arraySize b + 1` times reaches the fixpoint. -/
def groupOf (b : GoBoard) (c p : Nat) : List Nat :=
  iterExpand b c (arraySize b + 1) [p]

/-- A stone set has a liberty iff some member has an empty neighbour. -/
def hasLiberty (b : GoBoard) (g : List Nat) : Bool :=
  g.any (fun q => (neighborsOf b.size q).any (fun r => getCell b r == EMPTY))

/-- Modelled from the spec: the legality predicate `is_legal(cell, player)`
(§1, §3, glossary): the cell is on the board and empty, and after
hypothetically placing the stone the mover's resulting group retains at
least one liberty. -/
def is_legal (b : GoBoard) (p c : Nat) : Bool :=
  validPoint b.size p && (getCell b p == EMPTY) &&
    hasLiberty (setCells b p c) (groupOf (setCells b p c) c p)

/-- Modelled from the spec: the opponent map of the board module. -/
def opponent (c : Nat) : Nat := if c = BLACK then WHITE else BLACK

/-- Modelled from the spec: the in-place move application of the board
module (§3, §6): on a legal move it places the stone, alternates the
current player and records the move; it returns a success flag. -/
def play_move (b : GoBoard) (p c : Nat) : GoBoard × Bool :=
  if is_legal b p c then
    let b1 := setCells b p c
    ({ b1 with current_player := opponent c,
               last_move := some p, last_move_color := some c }, true)
  else (b, false)

/-- Modelled from the spec: the canonical string encoding `str(board)`
(§3): a deterministic serialization derived from the full cell contents
(and the size), not including whose turn it is. -/
def encode (b : GoBoard) : String :=
  toString b.size ++ ":" ++
    String.join ((List.range (arraySize b)).map (fun p => toString (getCell b p)))

/-- Source `point_to_coord` of `gtp_connection.py`: board array index to
(row, col), via `divmod(point, boardsize + 1)`. -/
def point_to_coord (point : Nat) (boardsize : Nat) : Nat × Nat :=
  (point / (boardsize + 1), point % (boardsize + 1))

/-- The column letter table of `format_point` (letter I skipped). -/
def column_letters : String := "ABCDEFGHJKLMNOPQRSTUVWXYZ"

/-- Source `format_point` of `gtp_connection.py`: move coordinates (row, col) as
a string such as `A1`, `column_letters[col - 1] + str(row)`. -/
def format_point (move : Nat × Nat) : String :=
  String.singleton (column_letters.toList.getD (move.2 - 1) 'A') ++ toString move.1

/-- A Python value used as a transposition-table key: the solver passes
either a string (the board encoding, at lookups) or a board object (at
stores). -/
inductive PyKey where
  | str (s : String)
  | board (b : GoBoard)
deriving DecidableEq

/-- Python `str` applied to a table key.  For a board object this is the
canonical encoding (modelled from the spec, §3). -/
def pyStr : PyKey → String
  | PyKey.str s => s
  | PyKey.board b => encode b

/-- Source `TranspositionTable` of `gtp_connection.py`: a dictionary with board
code as key and search result as value.  Modelled as an association list;
insertion prepends and lookup takes the first match, so the last write
for a key wins, as in a Python dict. -/
structure TranspositionTable where
  table : List (String × (Bool × String)) := []
deriving DecidableEq, Repr

/-- First match in the association list, as Python `dict.get`. -/
def lookupAssoc (l : List (String × (Bool × String))) (s : String) :
    Option (Bool × String) :=
  match l with
  | [] => none
  | (k, v) :: rest => if k = s then some v else lookupAssoc rest s

/-- Source `TranspositionTable.store`: `code = str(code); self.table[code] = score`.
The key is converted to its string form before insertion. -/
def TranspositionTable.store (t : TranspositionTable) (code : PyKey)
    (score : Bool × String) : TranspositionTable :=
  { table := (pyStr code, score) :: t.table }

/-- Source `TranspositionTable.lookup`: `self.table.get(code)`.  The key is used
as given; every stored key is a string (`store` converts), and a board
object compares unequal to every string, so a board key is never found. -/
def TranspositionTable.lookup (t : TranspositionTable) (code : PyKey) :
    Option (Bool × String) :=
  match code with
  | PyKey.str s => lookupAssoc t.table s
  | PyKey.board _ => none

/-- Python `str` of a boolean (`str(True) = "True"`). -/
def pyBoolStr (b : Bool) : String := if b then "True" else "False"

/-- Python `str.lower` on one character (ASCII, which is all the solver
produces). -/
def pyLowerChar (c : Char) : Char :=
  if 'A' ≤ c ∧ c ≤ 'Z' then Char.ofNat (c.toNat + 32) else c

/-- Python `str.lower`. -/
def pyLower (s : String) : String := String.mk (s.data.map pyLowerChar)

/-- The player letter of `boolean_negamax`:
`"b" if current_player==BLACK else "w"`. -/
def colorLetter (current_player : Nat) : String :=
  if current_player = BLACK then "b" else "w"

/-- Result of one `boolean_negamax` call: the returned (score, string)
pair, the transposition table after the call, and the text written to
standard output by the `print` statements, as a list of written chunks. -/
abbrev NegaRes : Type :=
  (Bool × String) × TranspositionTable × List String

/-- The candidate loop of `boolean_negamax` (lines 428–449), with the
recursive call abstracted as `rec`.  Faithful to the source: one shared
`board` is threaded through consecutive candidates without undoing prior
placements, every negated child result is stored keyed by `current_board`
(a board object, hence stringified by `store`), and the first winning
candidate returns immediately. -/
def negamaxLoopAux (rec : GoBoard → TranspositionTable → Option NegaRes)
    (current_board : GoBoard) (current_player : Nat) :
    List Nat → GoBoard → TranspositionTable → Option NegaRes
  | [], _, tt => some ((false, "resign"), tt, ["returnResign@\n"])
  | move :: rest, board, tt =>
    if is_legal board move current_player then
      let board1 := (play_move board move current_player).1
      match rec board1 tt with
      | none => none
      | some ((cscore, score_string), tt1, out1) =>
        let score := !cscore
        let tt2 := tt1.store (PyKey.board current_board) (score, score_string)
        if score then
          let final_move := format_point (point_to_coord move board1.size)
          some ((true, pyLower (colorLetter current_player ++ " " ++ final_move)),
                tt2, out1 ++ ["lastmove " ++ final_move ++ "\n", "ret2\n"])
        else
          match negamaxLoopAux rec current_board current_player rest board1 tt2 with
          | none => none
          | some (r, ttf, out2) => some (r, ttf, out1 ++ out2)
    else
      negamaxLoopAux rec current_board current_player rest board tt

/-- Source `boolean_negamax` of `gtp_connection.py` (lines 411–449), with a fuel
parameter added for the embedding (the Python recursion is unbounded; by
C7 a fuel of `numEmpties + 1` suffices).  `none` means out of fuel.
The copy at line 412 is implicit in the value semantics; `str(board)` is
the canonical encoding; a table hit returns
`"{} {}".format(res[0], res[1]).lower()` when the stored score is true
and `"{}".format(res[1]).lower()` otherwise; a miss runs the loop over
the empty points.  Output chunks record the `print` calls. -/
def boolean_negamax : Nat → GoBoard → Nat → TranspositionTable → Option NegaRes
  | 0, _, _, _ => none
  | fuel + 1, current_board, current_player, transposition_table =>
    let board := current_board
    let board_score := encode board
    match transposition_table.lookup (PyKey.str board_score) with
    | some res =>
      if res.1 then
        some ((true, pyLower (pyBoolStr res.1 ++ " " ++ res.2)),
              transposition_table,
              [board_score ++ "\n", "retTT\n",
               pyLower (pyBoolStr res.1 ++ " " ++ res.2) ++ "\n"])
      else
        some ((false, pyLower res.2), transposition_table,
              [board_score ++ "\n", "retTT2\n"])
    | none =>
      match negamaxLoopAux (fun b2 tt2 => boolean_negamax fuel b2 current_player tt2)
          current_board current_player (get_empty_points board) board
          transposition_table with
      | none => none
      | some (r, ttf, out) => some (r, ttf, (board_score ++ "\n") :: out)

/-- Source `solve_cmd` of `gtp_connection.py` (lines 384–397): create a fresh
transposition table, run the search on the current board and current
player, clear `last_move` and `last_move_color` on the live board, and
respond with the score string (`respond` writes `"= " + body + "\n\n"`;
both branches respond with the same string).  Returns the live board
after the command together with everything written to standard output. -/
def solve_cmd (board : GoBoard) : GoBoard × List String :=
  let transposition_table : TranspositionTable := { table := [] }
  let current_player := board.current_player
  let r := (boolean_negamax (numEmpties board + 1) board current_player
      transposition_table).getD ((false, "resign"), transposition_table, [])
  ({ board with last_move := none, last_move_color := none },
   r.2.2 ++ ["= " ++ r.1.2 ++ "\n\n"])

/-- Modelled from the spec: the candidate loop as §4.2 step 3a describes
it, for comparison with the source loop (C1): every candidate move is
applied to an independent copy of the parent board `current_board`, so
each sibling's legality check and recursive evaluation start from the
same pre-move position.  All other behaviour (store, first-win return)
is kept identical to the source loop. -/
def specLoopAux (rec : GoBoard → TranspositionTable → Option NegaRes)
    (current_board : GoBoard) (current_player : Nat) :
    List Nat → TranspositionTable → Option NegaRes
  | [], tt => some ((false, "resign"), tt, ["returnResign@\n"])
  | move :: rest, tt =>
    if is_legal current_board move current_player then
      let board1 := (play_move current_board move current_player).1
      match rec board1 tt with
      | none => none
      | some ((cscore, score_string), tt1, out1) =>
        let score := !cscore
        let tt2 := tt1.store (PyKey.board current_board) (score, score_string)
        if score then
          let final_move := format_point (point_to_coord move board1.size)
          some ((true, pyLower (colorLetter current_player ++ " " ++ final_move)),
                tt2, out1 ++ ["lastmove " ++ final_move ++ "\n", "ret2\n"])
        else
          match specLoopAux rec current_board current_player rest tt2 with
          | none => none
          | some (r, ttf, out2) => some (r, ttf, out1 ++ out2)
    else
      specLoopAux rec current_board current_player rest tt

/-- Modelled from the spec: `boolean_negamax` with the independent-copy
candidate loop of §4.2, identical to the source otherwise. -/
def negamax_spec : Nat → GoBoard → Nat → TranspositionTable → Option NegaRes
  | 0, _, _, _ => none
  | fuel + 1, current_board, current_player, transposition_table =>
    let board_score := encode current_board
    match transposition_table.lookup (PyKey.str board_score) with
    | some res =>
      if res.1 then
        some ((true, pyLower (pyBoolStr res.1 ++ " " ++ res.2)),
              transposition_table,
              [board_score ++ "\n", "retTT\n",
               pyLower (pyBoolStr res.1 ++ " " ++ res.2) ++ "\n"])
      else
        some ((false, pyLower res.2), transposition_table,
              [board_score ++ "\n", "retTT2\n"])
    | none =>
      match specLoopAux (fun b2 tt2 => negamax_spec fuel b2 current_player tt2)
          current_board current_player (get_empty_points current_board)
          transposition_table with
      | none => none
      | some (r, ttf, out) => some (r, ttf, (board_score ++ "\n") :: out)

/-- A 2×2 board, all four cells empty, black to move. -/
def b2x2 : GoBoard :=
  { size := 2, cells := [3, 3, 3, 3, 0, 0, 3, 0, 0], current_player := 1 }

/-- A 1×1 board, the single cell empty, black to move. -/
def b1x1 : GoBoard :=
  { size := 1, cells := [3, 3, 3, 0], current_player := 1 }

/-- A 1×1 board like `b1x1` but with a recorded previous move, exercising
the move-tracking fields that `solve_cmd` clears. -/
def b1x1m : GoBoard :=
  { size := 1, cells := [3, 3, 3, 0], current_player := 1,
    last_move := some 3, last_move_color := some 1 }

/-- A transposition table holding an entry for the empty 1×1 board. -/
def tt1x1 : TranspositionTable :=
  { table := [(encode b1x1, (true, "b a1"))] }


/-! ### Basic board lemmas -/

theorem validPoint_iff (sz p : Nat) :
    validPoint sz p = true ↔
      1 ≤ p / (sz + 1) ∧ p / (sz + 1) ≤ sz ∧ 1 ≤ p % (sz + 1) ∧ p % (sz + 1) ≤ sz := by
  simp [validPoint, and_assoc]

theorem validPoint_lt (sz p : Nat) (h : validPoint sz p = true) : p < arraySizeOf sz := by
  rw [validPoint_iff] at h
  obtain ⟨h1, h2, h3, h4⟩ := h
  have hdm : (sz + 1) * (p / (sz + 1)) + p % (sz + 1) = p := Nat.div_add_mod p (sz + 1)
  have h6 : (sz + 1) * (p / (sz + 1)) ≤ (sz + 1) * sz := Nat.mul_le_mul_left _ h2
  have h7 : (sz + 1) * sz + (sz + 1) = (sz + 1) * (sz + 1) := by ring
  unfold arraySizeOf
  omega

theorem validPoint_ge (sz p : Nat) (h : validPoint sz p = true) : sz + 2 ≤ p := by
  rw [validPoint_iff] at h
  obtain ⟨h1, h2, h3, h4⟩ := h
  have hdm : (sz + 1) * (p / (sz + 1)) + p % (sz + 1) = p := Nat.div_add_mod p (sz + 1)
  have h6 : (sz + 1) * 1 ≤ (sz + 1) * (p / (sz + 1)) := Nat.mul_le_mul_left _ h1
  omega

theorem mem_neighborsOf (sz p q : Nat) :
    q ∈ neighborsOf sz p ↔
      validPoint sz q = true ∧
        (q = p - (sz + 1) ∨ q = p - 1 ∨ q = p + 1 ∨ q = p + (sz + 1)) := by
  simp [neighborsOf, List.mem_filter, and_comm]

theorem neighborsOf_symm (sz p q : Nat) (hp : validPoint sz p = true)
    (hq : validPoint sz q = true) (h : q ∈ neighborsOf sz p) : p ∈ neighborsOf sz q := by
  have hp2 := validPoint_ge sz p hp
  have hq2 := validPoint_ge sz q hq
  rw [mem_neighborsOf] at h ⊢
  refine ⟨hp, ?_⟩
  obtain ⟨-, h⟩ := h
  omega

theorem getD_set_self (l : List Nat) (i v d : Nat) (h : i < l.length) :
    (l.set i v).getD i d = v := by
  induction l generalizing i with
  | nil => simp at h
  | cons a t ih =>
    cases i with
    | zero => rfl
    | succ n => simpa [List.getD] using ih n (by simpa using h)

theorem getD_set_ne (l : List Nat) (i j v d : Nat) (h : i ≠ j) :
    (l.set i v).getD j d = l.getD j d := by
  induction l generalizing i j with
  | nil => rfl
  | cons a t ih =>
    cases i with
    | zero =>
      cases j with
      | zero => exact absurd rfl h
      | succ n => rfl
    | succ n =>
      cases j with
      | zero => rfl
      | succ k => simpa [List.getD] using ih n k (by omega)

theorem size_setCells (b : GoBoard) (p c : Nat) : (setCells b p c).size = b.size := rfl

theorem length_setCells (b : GoBoard) (p c : Nat) :
    (setCells b p c).cells.length = b.cells.length := by
  simp [setCells]

theorem getCell_setCells_self (b : GoBoard) (p c : Nat)
    (hv : validPoint b.size p = true) (hl : p < b.cells.length) :
    getCell (setCells b p c) p = c := by
  show (if validPoint b.size p = true then (b.cells.set p c).getD p BORDER else BORDER) = c
  rw [if_pos hv]
  exact getD_set_self b.cells p c BORDER hl

theorem getCell_setCells_ne (b : GoBoard) (p c q : Nat) (h : q ≠ p) :
    getCell (setCells b p c) q = getCell b q := by
  show (if validPoint b.size q = true then (b.cells.set p c).getD q BORDER else BORDER) =
    if validPoint b.size q = true then b.cells.getD q BORDER else BORDER
  by_cases hv : validPoint b.size q = true
  · rw [if_pos hv, if_pos hv, getD_set_ne b.cells p q c BORDER (Ne.symm h)]
  · rw [if_neg hv, if_neg hv]

theorem getCell_valid (b : GoBoard) (p : Nat) (h : getCell b p ≠ BORDER) :
    validPoint b.size p = true := by
  by_contra hv
  simp only [getCell] at h
  rw [if_neg] at h
  · exact h rfl
  · simpa using hv

theorem mem_get_empty_points (b : GoBoard) (p : Nat) :
    p ∈ get_empty_points b ↔ validPoint b.size p = true ∧ getCell b p = EMPTY := by
  constructor
  · intro h
    simp only [get_empty_points, List.mem_filter, List.mem_range, Bool.and_eq_true,
      beq_iff_eq] at h
    exact ⟨h.2.1, h.2.2⟩
  · intro ⟨h1, h2⟩
    simp only [get_empty_points, List.mem_filter, List.mem_range, Bool.and_eq_true,
      beq_iff_eq]
    exact ⟨validPoint_lt b.size p h1, h1, h2⟩

theorem numEmpties_setCells (b : GoBoard) (p c : Nat)
    (hwf : b.cells.length = arraySize b) (hv : validPoint b.size p = true)
    (he : getCell b p = EMPTY) (hc : c ≠ EMPTY) :
    numEmpties (setCells b p c) + 1 = numEmpties b := by
  have hlt : p < b.cells.length := by
    rw [hwf]
    exact validPoint_lt b.size p hv
  have hnd : (get_empty_points b).Nodup := (List.nodup_range _).filter _
  have hmem : p ∈ get_empty_points b := (mem_get_empty_points b p).2 ⟨hv, he⟩
  have h1 : get_empty_points (setCells b p c) = (get_empty_points b).erase p := by
    rw [hnd.erase_eq_filter p]
    unfold get_empty_points
    rw [List.filter_filter]
    apply List.filter_congr
    intro x hx
    rw [size_setCells]
    by_cases hxp : x = p
    · subst hxp
      rw [getCell_setCells_self b x c hv hlt]
      simp [hv, hc]
    · rw [getCell_setCells_ne b p c x hxp]
      simp [hxp]
  unfold numEmpties
  rw [h1, List.length_erase_of_mem hmem]
  have h3 : 0 < (get_empty_points b).length := List.length_pos_of_mem hmem
  omega

theorem size_play (b : GoBoard) (p c : Nat) : (play_move b p c).1.size = b.size := by
  unfold play_move
  split <;> rfl

theorem play_move_eq (b : GoBoard) (p c : Nat) (h : is_legal b p c = true) :
    (play_move b p c).1 =
      { size := b.size, cells := b.cells.set p c, current_player := opponent c,
        last_move := some p, last_move_color := some c } := by
  simp [play_move, h, setCells]

theorem getCell_play (b : GoBoard) (p c q : Nat) (h : is_legal b p c = true) :
    getCell ((play_move b p c).1) q = getCell (setCells b p c) q := by
  rw [play_move_eq b p c h]
  rfl

theorem length_play (b : GoBoard) (p c : Nat) (h : is_legal b p c = true) :
    (play_move b p c).1.cells.length = b.cells.length := by
  rw [play_move_eq b p c h]
  simp

theorem numEmpties_play (b : GoBoard) (p c : Nat) (h : is_legal b p c = true) :
    numEmpties ((play_move b p c).1) = numEmpties (setCells b p c) := by
  rw [play_move_eq b p c h]
  rfl

theorem is_legal_elim (b : GoBoard) (p c : Nat) (h : is_legal b p c = true) :
    validPoint b.size p = true ∧ getCell b p = EMPTY ∧
      hasLiberty (setCells b p c) (groupOf (setCells b p c) c p) = true := by
  simp only [is_legal, Bool.and_eq_true, beq_iff_eq] at h
  exact ⟨h.1.1, h.1.2, h.2⟩

/-- The advanced boards the solver's candidate loop threads through: `b`
has the same size as `cb`, both have well-formed cell arrays, and every
cell of `b` either agrees with `cb` or is a stone of colour `c` placed on
a cell that is empty in `cb`. -/
structure BoardExt (cb b : GoBoard) (c : Nat) : Prop where
  hsize : b.size = cb.size
  hlenb : b.cells.length = arraySize b
  hlencb : cb.cells.length = arraySize cb
  hcell : ∀ p, getCell b p = getCell cb p ∨ (getCell cb p = EMPTY ∧ getCell b p = c)

theorem BoardExt.base (b : GoBoard) (c : Nat) (hwf : b.cells.length = arraySize b) :
    BoardExt b b c :=
  ⟨rfl, hwf, hwf, fun _ => Or.inl rfl⟩

theorem BoardExt.play (cb b : GoBoard) (c m : Nat) (he : BoardExt cb b c)
    (h : is_legal b m c = true) : BoardExt cb ((play_move b m c).1) c := by
  obtain ⟨hv, hemp, -⟩ := is_legal_elim b m c h
  have hlt : m < b.cells.length := by
    rw [he.hlenb]
    exact validPoint_lt b.size m hv
  refine ⟨?_, ?_, he.hlencb, ?_⟩
  · rw [size_play]
    exact he.hsize
  · show (play_move b m c).1.cells.length = arraySizeOf (play_move b m c).1.size
    rw [length_play b m c h, size_play b m c]
    exact he.hlenb
  · intro p
    rw [getCell_play b m c p h]
    by_cases hpm : p = m
    · subst hpm
      right
      constructor
      · rcases he.hcell p with h1 | h1
        · rw [← h1, hemp]
        · exact h1.1
      · exact getCell_setCells_self b p c hv hlt
    · rw [getCell_setCells_ne b m c p hpm]
      exact he.hcell p

/-! ### Connected groups: soundness and closure of the iterated growth -/

theorem mem_expandOnce (b : GoBoard) (c : Nat) (acc : List Nat) (x : Nat) :
    x ∈ expandOnce b c acc ↔
      x ∈ acc ∨ (x < arraySize b ∧ getCell b x = c ∧ x ∉ acc ∧
        ∃ r ∈ neighborsOf b.size x, r ∈ acc) := by
  simp [expandOnce, List.mem_filter, List.any_eq_true, List.contains,
    List.elem_iff, and_assoc]

theorem subset_iterExpand (b : GoBoard) (c : Nat) :
    ∀ (n : Nat) (acc : List Nat), acc ⊆ iterExpand b c n acc := by
  intro n
  induction n with
  | zero => intro acc; exact fun _ h => h
  | succ n ih =>
    intro acc
    refine List.Subset.trans ?_ (ih (expandOnce b c acc))
    exact List.subset_append_left _ _

theorem iterExpand_fix (b : GoBoard) (c : Nat) (acc : List Nat)
    (h : expandOnce b c acc = acc) : ∀ n, iterExpand b c n acc = acc := by
  intro n
  induction n with
  | zero => rfl
  | succ n ih =>
    show iterExpand b c n (expandOnce b c acc) = acc
    rw [h, ih]

theorem expandOnce_nodup (b : GoBoard) (c : Nat) (acc : List Nat)
    (h : acc.Nodup) : (expandOnce b c acc).Nodup := by
  refine List.Nodup.append h ((List.nodup_range _).filter _) ?_
  rw [List.disjoint_left]
  intro a ha hmem
  rw [List.mem_filter] at hmem
  have := hmem.2
  simp only [Bool.and_eq_true, Bool.not_eq_true'] at this
  have hcont : acc.contains a = false := this.1.2
  rw [List.contains, ← Bool.not_eq_true, List.elem_iff] at hcont
  exact hcont ha

theorem append_grow (l t : List Nat) (h : l ++ t ≠ l) :
    l.length + 1 ≤ (l ++ t).length := by
  cases t with
  | nil => simp at h
  | cons y ys => simp

theorem expandOnce_grow (b : GoBoard) (c : Nat) (acc : List Nat)
    (h : expandOnce b c acc ≠ acc) :
    acc.length + 1 ≤ (expandOnce b c acc).length := by
  unfold expandOnce at h ⊢
  exact append_grow _ _ h

theorem fix_reached (b : GoBoard) (c : Nat) (pool : List Nat)
    (hrange : ∀ x ∈ List.range (arraySize b), x ∈ pool) :
    ∀ (n : Nat) (acc : List Nat), acc.Nodup → (∀ x ∈ acc, x ∈ pool) →
      pool.length + 1 ≤ acc.length + n →
      expandOnce b c (iterExpand b c n acc) = iterExpand b c n acc := by
  intro n
  induction n with
  | zero =>
    intro acc hnd hsub hlen
    have : acc.length ≤ pool.length := (List.subperm_of_subset hnd hsub).length_le
    omega
  | succ n ih =>
    intro acc hnd hsub hlen
    by_cases hfix : expandOnce b c acc = acc
    · have h1 : iterExpand b c (n + 1) acc = acc := iterExpand_fix b c acc hfix (n + 1)
      rw [h1, hfix]
    · show expandOnce b c (iterExpand b c n (expandOnce b c acc)) =
        iterExpand b c n (expandOnce b c acc)
      refine ih (expandOnce b c acc) (expandOnce_nodup b c acc hnd) ?_ ?_
      · intro x hx
        rcases (mem_expandOnce b c acc x).1 hx with h1 | h1
        · exact hsub x h1
        · exact hrange x (List.mem_range.2 h1.1)
      · have := expandOnce_grow b c acc hfix
        omega

theorem groupOf_fix (b : GoBoard) (c p : Nat) :
    expandOnce b c (groupOf b c p) = groupOf b c p := by
  unfold groupOf
  refine fix_reached b c (p :: List.range (arraySize b)) ?_ (arraySize b + 1) [p]
    (List.nodup_singleton p) ?_ ?_
  · intro x hx
    exact List.mem_cons_of_mem p hx
  · intro x hx
    rw [List.mem_singleton] at hx
    rw [hx]
    exact List.mem_cons_self p _
  · simp only [List.length_cons, List.length_range, List.length_singleton]
    omega

theorem mem_groupOf_base (b : GoBoard) (c p : Nat) : p ∈ groupOf b c p :=
  subset_iterExpand b c (arraySize b + 1) [p] (List.mem_singleton.2 rfl)

theorem groupOf_closed (b : GoBoard) (c p q r : Nat) (hc : c ≠ BORDER)
    (hq : validPoint b.size q = true) (hqm : q ∈ groupOf b c p)
    (hr : r ∈ neighborsOf b.size q) (hrc : getCell b r = c) :
    r ∈ groupOf b c p := by
  by_cases hin : r ∈ groupOf b c p
  · exact hin
  · have hrv : validPoint b.size r = true := by
      apply getCell_valid
      rw [hrc]
      exact hc
    have hmem : r ∈ expandOnce b c (groupOf b c p) := by
      rw [mem_expandOnce]
      right
      refine ⟨validPoint_lt b.size r hrv, hrc, hin, q, ?_, hqm⟩
      exact neighborsOf_symm b.size q r hq hrv hr
    rw [groupOf_fix] at hmem
    exact hmem

/-- Connectivity by stones of colour `c` from `p`, the semantic counterpart
of `groupOf`. -/
inductive ReachIn (b : GoBoard) (c : Nat) (p : Nat) : Nat → Prop where
  | base : ReachIn b c p p
  | step (q r : Nat) : ReachIn b c p q → r ∈ neighborsOf b.size q →
      getCell b r = c → ReachIn b c p r

theorem iterExpand_sound (b : GoBoard) (c p : Nat) (hc : c ≠ BORDER) :
    ∀ (n : Nat) (acc : List Nat), (∀ x ∈ acc, ReachIn b c p x) →
      ∀ x ∈ iterExpand b c n acc, ReachIn b c p x := by
  intro n
  induction n with
  | zero => intro acc hacc; exact hacc
  | succ n ih =>
    intro acc hacc
    refine ih (expandOnce b c acc) ?_
    intro x hx
    rcases (mem_expandOnce b c acc x).1 hx with h1 | h1
    · exact hacc x h1
    · obtain ⟨-, hcol, -, r, hrnb, hracc⟩ := h1
      have hxv : validPoint b.size x = true := by
        apply getCell_valid
        rw [hcol]
        exact hc
      have hrv : validPoint b.size r = true := ((mem_neighborsOf b.size x r).1 hrnb).1
      exact ReachIn.step r x (hacc r hracc)
        (neighborsOf_symm b.size x r hxv hrv hrnb) hcol

theorem groupOf_sound (b : GoBoard) (c p q : Nat) (hc : c ≠ BORDER)
    (h : q ∈ groupOf b c p) : ReachIn b c p q := by
  refine iterExpand_sound b c p hc (arraySize b + 1) [p] ?_ q h
  intro x hx
  rw [List.mem_singleton] at hx
  rw [hx]
  exact ReachIn.base

/-! ### Monotonicity: a cell playable on an advanced board was playable on
the parent.  Stones of the mover's own colour added on empty cells can
only remove liberties and can never connect a suicidal placement to a
liberty, because every such connection would have to cross a cell that
was itself a liberty of the placement's group on the parent board. -/

theorem hasLiberty_group_mono (B1 B2 : GoBoard) (c m : Nat)
    (hc3 : c ≠ BORDER) (hext : BoardExt B1 B2 c)
    (hm : validPoint B1.size m = true)
    (h2 : hasLiberty B2 (groupOf B2 c m) = true) :
    hasLiberty B1 (groupOf B1 c m) = true := by
  by_cases hfix : hasLiberty B1 (groupOf B1 c m) = true
  · exact hfix
  · exfalso
    rw [Bool.not_eq_true] at hfix
    have hnolib : ∀ q ∈ groupOf B1 c m, ∀ r ∈ neighborsOf B1.size q,
        getCell B1 r ≠ EMPTY := by
      intro q hq r hr hre
      have hlib : hasLiberty B1 (groupOf B1 c m) = true := by
        rw [hasLiberty, List.any_eq_true]
        refine ⟨q, hq, ?_⟩
        rw [List.any_eq_true]
        exact ⟨r, hr, by simp [hre]⟩
      rw [hfix] at hlib
      exact Bool.noConfusion hlib
    rw [hasLiberty, List.any_eq_true] at h2
    obtain ⟨q, hq, hqlib⟩ := h2
    rw [List.any_eq_true] at hqlib
    obtain ⟨r, hrnb, hre⟩ := hqlib
    rw [beq_iff_eq] at hre
    have htrans : ∀ x, ReachIn B2 c m x →
        x ∈ groupOf B1 c m ∧ validPoint B1.size x = true := by
      intro x hx
      induction hx with
      | base => exact ⟨mem_groupOf_base B1 c m, hm⟩
      | step q' r' hq' hnbr hcol ih =>
        obtain ⟨hq'mem, hq'v⟩ := ih
        rw [hext.hsize] at hnbr
        have hr'B1 : getCell B1 r' = c := by
          rcases hext.hcell r' with h1 | h1
          · rw [← h1]
            exact hcol
          · exact absurd h1.1 (hnolib q' hq'mem r' hnbr)
        have hr'mem : r' ∈ groupOf B1 c m :=
          groupOf_closed B1 c m q' r' hc3 hq'v hq'mem hnbr hr'B1
        refine ⟨hr'mem, ?_⟩
        apply getCell_valid
        rw [hr'B1]
        exact hc3
    have hreach : ReachIn B2 c m q := groupOf_sound B2 c m q hc3 hq
    obtain ⟨hqmem, hqv⟩ := htrans q hreach
    rw [hext.hsize] at hrnb
    have hrB1 : getCell B1 r = EMPTY := by
      rcases hext.hcell r with h1 | h1
      · rw [← h1]
        exact hre
      · exact h1.1
    exact hnolib q hqmem r hrnb hrB1

theorem is_legal_mono (cb b : GoBoard) (c m : Nat)
    (hc3 : c ≠ BORDER) (he : BoardExt cb b c) (h : is_legal b m c = true) :
    is_legal cb m c = true := by
  obtain ⟨hv, hemp, hlib⟩ := is_legal_elim b m c h
  have hvcb : validPoint cb.size m = true := by
    rw [← he.hsize]
    exact hv
  have hempcb : getCell cb m = EMPTY := by
    rcases he.hcell m with h1 | h1
    · rw [← h1]
      exact hemp
    · exact h1.1
  have hlt_b : m < b.cells.length := by
    rw [he.hlenb]
    exact validPoint_lt b.size m hv
  have hlt_cb : m < cb.cells.length := by
    rw [he.hlencb]
    exact validPoint_lt cb.size m hvcb
  have hext' : BoardExt (setCells cb m c) (setCells b m c) c := by
    refine ⟨?_, ?_, ?_, ?_⟩
    · rw [size_setCells, size_setCells]
      exact he.hsize
    · show (setCells b m c).cells.length = arraySizeOf (setCells b m c).size
      rw [length_setCells, size_setCells]
      exact he.hlenb
    · show (setCells cb m c).cells.length = arraySizeOf (setCells cb m c).size
      rw [length_setCells, size_setCells]
      exact he.hlencb
    · intro p
      by_cases hpm : p = m
      · subst hpm
        left
        rw [getCell_setCells_self b p c hv hlt_b,
          getCell_setCells_self cb p c hvcb hlt_cb]
      · rw [getCell_setCells_ne b m c p hpm, getCell_setCells_ne cb m c p hpm]
        exact he.hcell p
  simp only [is_legal, Bool.and_eq_true, beq_iff_eq]
  refine ⟨⟨hvcb, hempcb⟩, ?_⟩
  refine hasLiberty_group_mono (setCells cb m c) (setCells b m c) c m hc3 hext' ?_ ?_
  · rw [size_setCells]
    exact hvcb
  · exact hlib

/-! ### Shape of the candidate-loop results -/

theorem loop_shape_weak (rec : GoBoard → TranspositionTable → Option NegaRes)
    (cb : GoBoard) (cp : Nat) :
    ∀ (moves : List Nat) (board : GoBoard) (tt : TranspositionTable)
      (sc : Bool) (s : String) (ttf : TranspositionTable) (out : List String),
      negamaxLoopAux rec cb cp moves board tt = some ((sc, s), ttf, out) →
      (sc = false ∧ s = "resign") ∨
      (sc = true ∧ ∃ m, m ∈ moves ∧
        s = pyLower (colorLetter cp ++ " " ++
          format_point (point_to_coord m board.size))) := by
  intro moves
  induction moves with
  | nil =>
    intro board tt sc s ttf out h
    rw [negamaxLoopAux] at h
    simp only [Option.some.injEq, Prod.mk.injEq] at h
    exact Or.inl ⟨h.1.1.symm, h.1.2.symm⟩
  | cons move rest ih =>
    intro board tt sc s ttf out h
    rw [negamaxLoopAux] at h
    by_cases hleg : is_legal board move cp = true
    · rw [if_pos hleg] at h
      simp only [] at h
      rcases hrec : rec (play_move board move cp).1 tt with - | ⟨⟨cscore, cstr⟩, tt1, out1⟩ <;>
        rw [hrec] at h
      · simp at h
      · simp only [] at h
        by_cases hsc : (!cscore) = true
        · rw [if_pos hsc] at h
          simp only [Option.some.injEq, Prod.mk.injEq] at h
          right
          refine ⟨h.1.1.symm, move, List.mem_cons_self _ _, ?_⟩
          rw [← h.1.2, size_play]
        · rw [if_neg hsc] at h
          rcases hloop : negamaxLoopAux rec cb cp rest (play_move board move cp).1
              (tt1.store (PyKey.board cb) ((!cscore), cstr)) with - | ⟨⟨sc0, s0⟩, ttf0, out2⟩ <;>
            rw [hloop] at h
          · simp at h
          · simp only [Option.some.injEq, Prod.mk.injEq] at h
            obtain ⟨⟨hsc0, hs0⟩, -, -⟩ := h
            rcases ih (play_move board move cp).1 (tt1.store (PyKey.board cb) ((!cscore), cstr))
                sc0 s0 ttf0 out2 hloop with h1 | ⟨h1, m, hm, hs⟩
            · exact Or.inl ⟨hsc0 ▸ h1.1, hs0 ▸ h1.2⟩
            · refine Or.inr ⟨hsc0 ▸ h1, m, List.mem_cons_of_mem _ hm, ?_⟩
              rw [← hs0, hs, size_play]
    · rw [if_neg hleg] at h
      rcases ih board tt sc s ttf out h with h1 | ⟨h1, m, hm, hs⟩
      · exact Or.inl h1
      · exact Or.inr ⟨h1, m, List.mem_cons_of_mem _ hm, hs⟩

theorem loop_shape_ext (rec : GoBoard → TranspositionTable → Option NegaRes)
    (cb : GoBoard) (cp : Nat) (hc3 : cp ≠ BORDER) :
    ∀ (moves : List Nat) (board : GoBoard) (tt : TranspositionTable)
      (sc : Bool) (s : String) (ttf : TranspositionTable) (out : List String),
      BoardExt cb board cp →
      negamaxLoopAux rec cb cp moves board tt = some ((sc, s), ttf, out) →
      (sc = false ∧ s = "resign") ∨
      (sc = true ∧ ∃ m, m ∈ moves ∧ is_legal cb m cp = true ∧
        s = pyLower (colorLetter cp ++ " " ++
          format_point (point_to_coord m cb.size))) := by
  intro moves
  induction moves with
  | nil =>
    intro board tt sc s ttf out he h
    rw [negamaxLoopAux] at h
    simp only [Option.some.injEq, Prod.mk.injEq] at h
    exact Or.inl ⟨h.1.1.symm, h.1.2.symm⟩
  | cons move rest ih =>
    intro board tt sc s ttf out he h
    rw [negamaxLoopAux] at h
    by_cases hleg : is_legal board move cp = true
    · rw [if_pos hleg] at h
      simp only [] at h
      rcases hrec : rec (play_move board move cp).1 tt with - | ⟨⟨cscore, cstr⟩, tt1, out1⟩ <;>
        rw [hrec] at h
      · simp at h
      · simp only [] at h
        by_cases hsc : (!cscore) = true
        · rw [if_pos hsc] at h
          simp only [Option.some.injEq, Prod.mk.injEq] at h
          right
          refine ⟨h.1.1.symm, move, List.mem_cons_self _ _,
            is_legal_mono cb board cp move hc3 he hleg, ?_⟩
          rw [← h.1.2, size_play, he.hsize]
        · rw [if_neg hsc] at h
          rcases hloop : negamaxLoopAux rec cb cp rest (play_move board move cp).1
              (tt1.store (PyKey.board cb) ((!cscore), cstr)) with - | ⟨⟨sc0, s0⟩, ttf0, out2⟩ <;>
            rw [hloop] at h
          · simp at h
          · simp only [Option.some.injEq, Prod.mk.injEq] at h
            obtain ⟨⟨hsc0, hs0⟩, -, -⟩ := h
            rcases ih (play_move board move cp).1
                (tt1.store (PyKey.board cb) ((!cscore), cstr)) sc0 s0 ttf0 out2
                (BoardExt.play cb board cp move he hleg) hloop with
              h1 | ⟨h1, m, hm, hlegm, hs⟩
            · exact Or.inl ⟨hsc0 ▸ h1.1, hs0 ▸ h1.2⟩
            · refine Or.inr ⟨hsc0 ▸ h1, m, List.mem_cons_of_mem _ hm, hlegm, ?_⟩
              rw [← hs0, hs]
    · rw [if_neg hleg] at h
      rcases ih board tt sc s ttf out he h with h1 | ⟨h1, m, hm, hlegm, hs⟩
      · exact Or.inl h1
      · exact Or.inr ⟨h1, m, List.mem_cons_of_mem _ hm, hlegm, hs⟩

theorem loop_all_illegal (rec : GoBoard → TranspositionTable → Option NegaRes)
    (cb : GoBoard) (cp : Nat) :
    ∀ (moves : List Nat) (board : GoBoard) (tt : TranspositionTable),
      (∀ m ∈ moves, is_legal board m cp = false) →
      negamaxLoopAux rec cb cp moves board tt =
        some ((false, "resign"), tt, ["returnResign@\n"]) := by
  intro moves
  induction moves with
  | nil => intro board tt hall; rw [negamaxLoopAux]
  | cons move rest ih =>
    intro board tt hall
    rw [negamaxLoopAux]
    have hm : is_legal board move cp = false := hall move (List.mem_cons_self _ _)
    rw [if_neg (by simp [hm])]
    exact ih board tt (fun m hmem => hall m (List.mem_cons_of_mem _ hmem))

theorem loop_total (rec : GoBoard → TranspositionTable → Option NegaRes)
    (cb : GoBoard) (cp : Nat) (hcp : cp ≠ EMPTY) (K : Nat)
    (hrec : ∀ (b' : GoBoard) (tt' : TranspositionTable),
      b'.cells.length = arraySize b' → numEmpties b' < K → rec b' tt' ≠ none) :
    ∀ (moves : List Nat) (board : GoBoard) (tt : TranspositionTable),
      board.cells.length = arraySize board → numEmpties board ≤ K →
      negamaxLoopAux rec cb cp moves board tt ≠ none := by
  intro moves
  induction moves with
  | nil =>
    intro board tt hwf hle
    rw [negamaxLoopAux]
    simp
  | cons move rest ih =>
    intro board tt hwf hle
    rw [negamaxLoopAux]
    by_cases hleg : is_legal board move cp = true
    · rw [if_pos hleg]
      simp only []
      obtain ⟨hv, hemp, -⟩ := is_legal_elim board move cp hleg
      have hwf1 : (play_move board move cp).1.cells.length =
          arraySize ((play_move board move cp).1) := by
        show _ = arraySizeOf (play_move board move cp).1.size
        rw [length_play board move cp hleg, size_play]
        exact hwf
      have hne : numEmpties ((play_move board move cp).1) + 1 = numEmpties board := by
        rw [numEmpties_play board move cp hleg]
        exact numEmpties_setCells board move cp hwf hv hemp hcp
      have hlt1 : numEmpties ((play_move board move cp).1) < K := by omega
      rcases hrecval : rec (play_move board move cp).1 tt with - | ⟨⟨cscore, cstr⟩, tt1, out1⟩
      · exact absurd hrecval (hrec _ tt hwf1 hlt1)
      · simp only []
        by_cases hsc : (!cscore) = true
        · rw [if_pos hsc]
          simp
        · rw [if_neg hsc]
          have hih := ih (play_move board move cp).1
            (tt1.store (PyKey.board cb) ((!cscore), cstr)) hwf1 (by omega)
          rcases hloop : negamaxLoopAux rec cb cp rest (play_move board move cp).1
              (tt1.store (PyKey.board cb) ((!cscore), cstr)) with - | ⟨r0, ttf0, out2⟩
          · exact absurd hloop hih
          · simp
    · rw [if_neg hleg]
      exact ih board tt hwf hle

theorem negamax_total (cp : Nat) (hcp : cp ≠ EMPTY) :
    ∀ (n : Nat) (b : GoBoard) (tt : TranspositionTable),
      b.cells.length = arraySize b → numEmpties b < n →
      boolean_negamax n b cp tt ≠ none := by
  intro n
  induction n with
  | zero =>
    intro b tt hwf hlt
    exact absurd hlt (Nat.not_lt_zero _)
  | succ n ih =>
    intro b tt hwf hlt
    rw [boolean_negamax]
    rcases hlk : tt.lookup (PyKey.str (encode b)) with - | ⟨r1, r2⟩
    · have hloop := loop_total (fun b2 tt2 => boolean_negamax n b2 cp tt2) b cp hcp
        (numEmpties b) (fun b' tt' hwf' hlt' => ih b' tt' hwf' (by omega))
        (get_empty_points b) b tt hwf (le_refl _)
      rcases hfin : negamaxLoopAux (fun b2 tt2 => boolean_negamax n b2 cp tt2) b cp
          (get_empty_points b) b tt with - | ⟨r, ttf, out⟩
      · exact absurd hfin hloop
      · simp
    · cases r1 <;> simp

/-! ### Claim theorems -/

/-- C1: the claim states that every candidate move is applied to an
independent copy of the parent position, so sibling candidates are always
evaluated from the pre-move parent board.  The code instead threads one
shared mutated board through consecutive siblings.  On the empty 2×2
board with black to move the source search returns witness `b a2`
(found on a board already carrying the first sibling's stone), while the
independent-copy search described by the spec returns `b a1`; in
particular the two searches disagree, so the second sibling cannot have
been evaluated from the pre-move parent position. -/
theorem C1_sibling_mutation_vs_spec :
    (boolean_negamax (numEmpties b2x2 + 1) b2x2 BLACK { table := [] }).map (fun x => x.1) =
      some (true, "b a2") ∧
    (negamax_spec (numEmpties b2x2 + 1) b2x2 BLACK { table := [] }).map (fun x => x.1) =
      some (true, "b a1") ∧
    ¬((boolean_negamax (numEmpties b2x2 + 1) b2x2 BLACK { table := [] }).map (fun x => x.1) =
      (negamax_spec (numEmpties b2x2 + 1) b2x2 BLACK { table := [] }).map (fun x => x.1)) :=
  ⟨by decide, by decide, by decide⟩

/-- C2 counterexample: on a transposition-table hit the stored entry is
not returned verbatim.  With the table holding `(true, "b a1")` for the
empty 1×1 board, the solver returns `(true, "true b a1")` — the witness
is reformatted with the Python rendering of the stored boolean glued in
front — so the returned pair is not the stored pair. -/
theorem C2_hit_not_verbatim_cex :
    tt1x1.lookup (PyKey.str (encode b1x1)) = some (true, "b a1") ∧
    (boolean_negamax (numEmpties b1x1 + 1) b1x1 BLACK tt1x1).map (fun x => x.1) =
      some (true, "true b a1") ∧
    (boolean_negamax (numEmpties b1x1 + 1) b1x1 BLACK tt1x1).map (fun x => x.1) ≠
      some (true, "b a1") :=
  ⟨by decide, by decide, by decide⟩

/-- C2 amended: on a transposition-table hit the solver returns the
stored outcome and does not expand any child position (the table comes
back unchanged and only the hit's debug lines are printed), but the
witness is reformatted rather than returned verbatim: for a stored entry
`(outcome, w)` it returns `lower(str(outcome) + " " + w)` when the
outcome is true and `lower(w)` when it is false. -/
theorem C2_hit_reformat (fuel : Nat) (b : GoBoard) (cp : Nat)
    (tt : TranspositionTable) (res : Bool × String)
    (h : tt.lookup (PyKey.str (encode b)) = some res) :
    boolean_negamax (fuel + 1) b cp tt =
      some ((res.1, if res.1 then pyLower (pyBoolStr res.1 ++ " " ++ res.2)
              else pyLower res.2),
        tt,
        (encode b ++ "\n") ::
          (if res.1 then ["retTT\n", pyLower (pyBoolStr res.1 ++ " " ++ res.2) ++ "\n"]
            else ["retTT2\n"])) := by
  rw [boolean_negamax, h]
  rcases res with ⟨r1, r2⟩
  cases r1 <;> simp

/-- C2 witness: the amended hit behaviour evaluated on the empty 1×1
board with a pre-populated table. -/
theorem C2_hit_reformat_witness :
    tt1x1.lookup (PyKey.str (encode b1x1)) = some (true, "b a1") ∧
    boolean_negamax 1 b1x1 BLACK tt1x1 =
      some ((true, pyLower (pyBoolStr true ++ " " ++ "b a1")), tt1x1,
        [encode b1x1 ++ "\n", "retTT\n", pyLower (pyBoolStr true ++ " " ++ "b a1") ++ "\n"]) :=
  ⟨by decide, C2_hit_reformat 0 b1x1 BLACK tt1x1 (true, "b a1") (by decide)⟩

/-- C3: whenever the top-level search (fresh table, as `solve_cmd` runs
it) reports a win, the witness string names a move that is an empty cell
and a legal placement for the player to move on the original pre-search
board.  This holds despite the shared-board mutation across siblings,
because a cell that is suicidal on the parent board stays suicidal after
same-coloured stones are added on other empty cells. -/
theorem C3_win_witness_valid (b : GoBoard) (cp : Nat) (s : String)
    (hwf : b.cells.length = arraySize b) (hcp : cp = BLACK ∨ cp = WHITE)
    (h : (boolean_negamax (numEmpties b + 1) b cp { table := [] }).map (fun x => x.1) =
      some (true, s)) :
    ∃ m, validPoint b.size m = true ∧ getCell b m = EMPTY ∧ is_legal b m cp = true ∧
      s = pyLower (colorLetter cp ++ " " ++ format_point (point_to_coord m b.size)) := by
  have hc3 : cp ≠ BORDER := by
    rcases hcp with h1 | h1 <;> simp [h1, BLACK, WHITE, BORDER]
  rcases hfull : boolean_negamax (numEmpties b + 1) b cp { table := [] } with
    - | ⟨⟨sc, s0⟩, ttf, outl⟩
  · rw [hfull] at h
    simp at h
  · rw [hfull] at h
    simp only [Option.map_some', Option.some.injEq, Prod.mk.injEq] at h
    obtain ⟨hsc, hs0⟩ := h
    rw [boolean_negamax] at hfull
    have hlk : TranspositionTable.lookup { table := [] } (PyKey.str (encode b)) = none := rfl
    rw [hlk] at hfull
    rcases hloop : negamaxLoopAux
        (fun b2 tt2 => boolean_negamax (numEmpties b) b2 cp tt2) b cp
        (get_empty_points b) b { table := [] } with - | ⟨⟨sc1, s1⟩, ttf1, outl1⟩ <;>
      rw [hloop] at hfull
    · simp at hfull
    · simp only [Option.some.injEq, Prod.mk.injEq] at hfull
      obtain ⟨⟨hsc1, hs1⟩, -, -⟩ := hfull
      rcases loop_shape_ext _ b cp hc3 (get_empty_points b) b { table := [] }
          sc1 s1 ttf1 outl1 (BoardExt.base b cp hwf) hloop with
        ⟨h1, h2⟩ | ⟨h1, m, hm, hlegm, hsm⟩
      · rw [h1, hsc] at hsc1
        exact absurd hsc1 (by simp)
      · obtain ⟨hv, hemp⟩ := (mem_get_empty_points b m).1 hm
        exact ⟨m, hv, hemp, hlegm, by rw [← hs0, ← hs1, hsm]⟩

/-- C3 witness: the win reported on the empty 2×2 board names a cell
that is empty and legal on that board. -/
theorem C3_win_witness_valid_witness :
    ∃ m, validPoint b2x2.size m = true ∧ getCell b2x2 m = EMPTY ∧
      is_legal b2x2 m BLACK = true ∧
      "b a2" = pyLower (colorLetter BLACK ++ " " ++
        format_point (point_to_coord m b2x2.size)) :=
  C3_win_witness_valid b2x2 BLACK "b a2" (by decide) (Or.inl rfl) (by decide)

/-- C4 counterexample: on the 1×1 board, whose only empty cell is an
illegal (suicidal) placement, the solver returns `(false, "resign")` but
stores nothing: after the search the transposition table has no entry
under the position's encoding, contradicting the claim that the result
is stored before returning. -/
theorem C4_no_store_cex :
    (boolean_negamax (numEmpties b1x1 + 1) b1x1 BLACK { table := [] }).map
        (fun x => x.1) = some (false, "resign") ∧
    (boolean_negamax (numEmpties b1x1 + 1) b1x1 BLACK { table := [] }).map
        (fun x => x.2.1.lookup (PyKey.str (encode b1x1))) = some none :=
  ⟨by decide, by decide⟩

/-- C4 amended: on a table miss, a position with zero legal candidate
moves returns exactly `(false, "resign")`, and the transposition table is
returned unchanged — no entry is stored for the position (stores happen
only inside the candidate loop, after a child evaluation). -/
theorem C4_terminal_resign (fuel : Nat) (b : GoBoard) (cp : Nat)
    (tt : TranspositionTable)
    (hmiss : tt.lookup (PyKey.str (encode b)) = none)
    (hnone : ∀ m ∈ get_empty_points b, is_legal b m cp = false) :
    boolean_negamax (fuel + 1) b cp tt =
      some ((false, "resign"), tt, [encode b ++ "\n", "returnResign@\n"]) := by
  rw [boolean_negamax, hmiss,
    loop_all_illegal (fun b2 tt2 => boolean_negamax fuel b2 cp tt2) b cp
      (get_empty_points b) b tt hnone]

/-- C4 witness: the amended terminal behaviour evaluated on the 1×1
board, whose single empty point is suicidal. -/
theorem C4_terminal_resign_witness :
    (TranspositionTable.lookup { table := [] } (PyKey.str (encode b1x1)) = none) ∧
    (∀ m ∈ get_empty_points b1x1, is_legal b1x1 m BLACK = false) ∧
    boolean_negamax 1 b1x1 BLACK { table := [] } =
      some ((false, "resign"), { table := [] },
        [encode b1x1 ++ "\n", "returnResign@\n"]) :=
  ⟨by decide, by decide,
    C4_terminal_resign 0 b1x1 BLACK { table := [] } (by decide) (by decide)⟩

/-- C5 counterexample: on the empty 2×2 board the search returns
`(true, "b a2")`, but the entry stored for the parent position at the
winning moment is `(true, "resign")` — the negated child score paired
with the child's witness string — not the returned parent result, so the
table does not hold "exactly this parent result". -/
theorem C5_store_mismatch_cex :
    (boolean_negamax (numEmpties b2x2 + 1) b2x2 BLACK { table := [] }).map
        (fun x => x.1) = some (true, "b a2") ∧
    (boolean_negamax (numEmpties b2x2 + 1) b2x2 BLACK { table := [] }).map
        (fun x => x.2.1.lookup (PyKey.str (encode b2x2))) =
      some (some (true, "resign")) ∧
    ((true, "resign") : Bool × String) ≠ (true, "b a2") :=
  ⟨by decide, by decide, by decide⟩

/-- C5 amended: when the first winning candidate is found (the negated
child result is true), the loop records `(true, "<letter> <coordinate>")`
as the parent's returned value, stores `(true, childWitness)` — the
negated child score paired with the child's own witness string — keyed by
the parent board object, and returns immediately, so the remaining
candidates do not influence the result and are never evaluated. -/
theorem C5_first_win_return (rec : GoBoard → TranspositionTable → Option NegaRes)
    (cb board : GoBoard) (cp move : Nat) (rest : List Nat)
    (tt tt1 : TranspositionTable) (cstr : String) (out1 : List String)
    (hleg : is_legal board move cp = true)
    (hrec : rec (play_move board move cp).1 tt = some ((false, cstr), tt1, out1)) :
    negamaxLoopAux rec cb cp (move :: rest) board tt =
      some ((true, pyLower (colorLetter cp ++ " " ++
          format_point (point_to_coord move (play_move board move cp).1.size))),
        tt1.store (PyKey.board cb) (true, cstr),
        out1 ++ ["lastmove " ++
          format_point (point_to_coord move (play_move board move cp).1.size) ++ "\n",
          "ret2\n"]) := by
  rw [negamaxLoopAux, if_pos hleg]
  simp only []
  rw [hrec]
  rfl

/-- C5 witness: the first-winning-candidate behaviour on the 2×2 board
with a child evaluator that reports a loss for the child position. -/
theorem C5_first_win_return_witness :
    (is_legal b2x2 4 BLACK = true) ∧
    negamaxLoopAux (fun _ _ => some ((false, "resign"), { table := [] }, []))
        b2x2 BLACK [4] b2x2 { table := [] } =
      some ((true, pyLower (colorLetter BLACK ++ " " ++
          format_point (point_to_coord 4 (play_move b2x2 4 BLACK).1.size))),
        TranspositionTable.store { table := [] } (PyKey.board b2x2) (true, "resign"),
        [] ++ ["lastmove " ++
          format_point (point_to_coord 4 (play_move b2x2 4 BLACK).1.size) ++ "\n",
          "ret2\n"]) :=
  ⟨by decide,
    C5_first_win_return (fun _ _ => some ((false, "resign"), { table := [] }, []))
      b2x2 b2x2 BLACK 4 [] { table := [] } { table := [] } "resign" []
      (by decide) rfl⟩

/-- C6 counterexample: the solve command does not write exactly one
response line.  On the 1×1 board it writes three chunks to standard
output — the printed board encoding, the `returnResign@` debug line, and
only then the framed response — so the output is not of the form
`["= " ++ body ++ "\n\n"]` for any body. -/
theorem C6_extra_output_cex :
    (solve_cmd b1x1).2 = [encode b1x1 ++ "\n", "returnResign@\n", "= resign\n\n"] ∧
    ¬ ∃ body, (solve_cmd b1x1).2 = ["= " ++ body ++ "\n\n"] := by
  refine ⟨by decide, ?_⟩
  rintro ⟨body, hb⟩
  have h3 : (solve_cmd b1x1).2.length = 3 := by decide
  rw [hb] at h3
  simp at h3

/-- C6 amended: every invocation of the solve command writes the
solver's debug print lines followed by exactly one framed response line
`"= " ++ body ++ "\n\n"`, where body is the search's returned score
string: either `"resign"` or a lower-cased win witness naming the player
letter and the coordinate of one of the board's empty points.  (Uncaught
internal errors are re-raised by the dispatcher after logging to the
debug stream; they do not produce a `"? "` line.) -/
theorem C6_response_shape (b : GoBoard) :
    ∃ out body, (solve_cmd b).2 = out ++ ["= " ++ body ++ "\n\n"] ∧
      (body = "resign" ∨ ∃ m, m ∈ get_empty_points b ∧
        body = pyLower (colorLetter b.current_player ++ " " ++
          format_point (point_to_coord m b.size))) := by
  rcases hres : boolean_negamax (numEmpties b + 1) b b.current_player { table := [] } with
    - | ⟨⟨sc, s⟩, ttf, outl⟩
  · refine ⟨[], "resign", ?_, Or.inl rfl⟩
    simp [solve_cmd, hres]
  · have hout : (solve_cmd b).2 = outl ++ ["= " ++ s ++ "\n\n"] := by
      simp [solve_cmd, hres]
    rw [boolean_negamax] at hres
    have hlk : TranspositionTable.lookup { table := [] } (PyKey.str (encode b)) = none := rfl
    rw [hlk] at hres
    rcases hloop : negamaxLoopAux
        (fun b2 tt2 => boolean_negamax (numEmpties b) b2 b.current_player tt2) b
        b.current_player (get_empty_points b) b { table := [] } with
      - | ⟨⟨sc1, s1⟩, ttf1, outl1⟩ <;> rw [hloop] at hres
    · simp at hres
    · simp only [Option.some.injEq, Prod.mk.injEq] at hres
      obtain ⟨⟨hsc1, hs1⟩, -, -⟩ := hres
      rcases loop_shape_weak _ b b.current_player (get_empty_points b) b { table := [] }
          sc1 s1 ttf1 outl1 hloop with ⟨h1, h2⟩ | ⟨h1, m, hm, hsm⟩
      · exact ⟨outl, s, hout, Or.inl (by rw [← hs1, h2])⟩
      · exact ⟨outl, s, hout, Or.inr ⟨m, hm, by rw [← hs1, hsm]⟩⟩

/-- C8 counterexample: the move-tracking fields are not restored to
their pre-search values: on a board whose `last_move` is set, the solve
command leaves `last_move = none` instead of the pre-search value. -/
theorem C8_lastmove_cleared_cex :
    b1x1m.last_move = some 3 ∧ b1x1m.last_move_color = some BLACK ∧
    (solve_cmd b1x1m).1.last_move = none ∧
    (solve_cmd b1x1m).1.last_move ≠ b1x1m.last_move :=
  ⟨rfl, rfl, rfl, by decide⟩

/-- C8 amended: the solve command leaves the live board's cell contents,
size and current player exactly as they were before the search (the
search itself operates only on copies), and unconditionally clears the
move-tracking fields `last_move` and `last_move_color` to none — it does
not restore them to their pre-search values. -/
theorem C8_board_preserved (b : GoBoard) :
    (solve_cmd b).1.size = b.size ∧ (solve_cmd b).1.cells = b.cells ∧
    (solve_cmd b).1.current_player = b.current_player ∧
    (solve_cmd b).1.last_move = none ∧ (solve_cmd b).1.last_move_color = none :=
  ⟨rfl, rfl, rfl, rfl, rfl⟩

/-- C9: the transposition-table contract: lookup of an absent key reports
not-found, a store followed by a lookup of the same (string) encoding
returns the stored result, and a second store to the same encoding
overwrites — the last write wins.  Both operations are total functions of
the table value, and lookup is a pure read by construction (it is
`dict.get`, returning a result without producing a new table). -/
theorem C9_table_contract (t : TranspositionTable) (s : String) (v w : Bool × String) :
    (TranspositionTable.lookup { table := [] } (PyKey.str s) = none) ∧
    ((t.store (PyKey.str s) v).lookup (PyKey.str s) = some v) ∧
    (((t.store (PyKey.str s) v).store (PyKey.str s) w).lookup (PyKey.str s) = some w) := by
  refine ⟨rfl, ?_, ?_⟩ <;>
    simp [TranspositionTable.store, TranspositionTable.lookup, lookupAssoc, pyStr]

/-- C10: `store` converts its key to a string while `lookup` uses the key
as given: storing under a board object and looking up the same board
object finds nothing, while looking up the board's string form — its
canonical encoding — returns the stored value.  This is exactly the
coercion through which the solver (which stores with a board object and
looks up with `str(board)`) hits its cache. -/
theorem C10_key_coercion (t : TranspositionTable) (b : GoBoard) (v : Bool × String) :
    ((t.store (PyKey.board b) v).lookup (PyKey.board b) = none) ∧
    ((t.store (PyKey.board b) v).lookup (PyKey.str (pyStr (PyKey.board b))) = some v) ∧
    ((t.store (PyKey.board b) v).lookup (PyKey.str (encode b)) = some v) := by
  refine ⟨rfl, ?_, ?_⟩ <;>
    simp [TranspositionTable.store, TranspositionTable.lookup, lookupAssoc, pyStr]

/-- C7: the search terminates on every finite board: with fuel equal to
the number of empty cells plus one — that is, allowing one ply per empty
cell below the root — the fueled search never runs out of fuel, because
every recursive step consumes at least one empty cell.  This bounds the
recursion depth of the unbounded Python recursion by the number of empty
cells at invocation time. -/
theorem C7_search_terminates (b : GoBoard) (cp : Nat) (tt : TranspositionTable)
    (hwf : b.cells.length = arraySize b) (hcp : cp = BLACK ∨ cp = WHITE) :
    (boolean_negamax (numEmpties b + 1) b cp tt).isSome = true := by
  have hcp0 : cp ≠ EMPTY := by
    rcases hcp with h1 | h1 <;> simp [h1, BLACK, WHITE, EMPTY]
  have hne := negamax_total cp hcp0 (numEmpties b + 1) b tt hwf (Nat.lt_succ_self _)
  rcases hx : boolean_negamax (numEmpties b + 1) b cp tt with - | v
  · exact absurd hx hne
  · rfl

/-- C7 witness: the fueled search completes on the empty 2×2 board. -/
theorem C7_search_terminates_witness :
    (boolean_negamax (numEmpties b2x2 + 1) b2x2 BLACK
      { table := [] }).isSome = true :=
  C7_search_terminates b2x2 BLACK { table := [] } (by decide) (Or.inl rfl)
